import Mathlib

/-!
Verification of the `User` class of `wysknd-identity` (`lib/user.js`).

The class is embedded shallowly.  JavaScript values are modelled by `JSVal`;
arrays are mutable and live in an explicit `Heap` (a value `JSVal.arr a` is a
reference to cell `a`), while plain objects are modelled as immutable
association lists of fields (the code never mutates an object after it has
been built, so object identity is not tracked; arrays, whose mutation the
specification talks about, are tracked exactly).  Functions are collapsed to
the single marker `JSVal.fn` (the code never inspects or compares function
values).  The deep clone performed by the `clone` package is modelled by a
fuel-indexed recursion `cloneVal`; with enough fuel it agrees with the real
clone on every acyclic value.
-/

/-- A JavaScript value, as far as `lib/user.js` can observe it. -/
inductive JSVal where
  | str (s : String)
  | num (n : Int)
  | bool (b : Bool)
  | null
  | undef
  | fn
  | arr (a : Nat)
  | obj (fields : List (String × JSVal))
deriving Repr

/-- The array heap: cell `a` is `cells[a]`.  Addresses are list indices. -/
structure Heap where
  cells : List (List JSVal)
deriving Repr

/-- Dereference an array address. -/
def Heap.read (h : Heap) (a : Nat) : Option (List JSVal) :=
  h.cells[a]?

/-- Allocate a fresh array holding `xs`; returns the new heap and the address. -/
def Heap.alloc (h : Heap) (xs : List JSVal) : Heap × Nat :=
  (⟨h.cells ++ [xs]⟩, h.cells.length)

/-- Overwrite the contents of the array at address `a` (models any in-place
mutation of that array: `push`, index assignment, `splice`, ...). -/
def Heap.write (h : Heap) (a : Nat) (xs : List JSVal) : Heap :=
  ⟨h.cells.set a xs⟩

/-- JavaScript strict equality `===` on modelled values.  Arrays compare by
reference (address).  Distinct objects and distinct functions are never `===`;
the model does not track object identity, so `obj`/`fn` comparisons are
`false` (in the code the only `===` comparisons are `indexOf` calls against
the cloned `_roles` array, whose object elements are fresh clones and hence
`===`-distinct from every caller-held value). -/
def jsEq : JSVal → JSVal → Bool
  | JSVal.str a, JSVal.str b => a == b
  | JSVal.num a, JSVal.num b => a == b
  | JSVal.bool a, JSVal.bool b => a == b
  | JSVal.null, JSVal.null => true
  | JSVal.undef, JSVal.undef => true
  | JSVal.arr a, JSVal.arr b => a == b
  | _, _ => false

/-- `rs.indexOf(x) >= 0` : membership by strict equality. -/
def jsElem (x : JSVal) (rs : List JSVal) : Bool :=
  rs.any (fun r => jsEq r x)

/-- Property read on an object: the value of the first field named `k`,
`undefined` when absent. -/
def getField (fs : List (String × JSVal)) (k : String) : JSVal :=
  match fs.find? (fun p => p.1 == k) with
  | some p => p.2
  | none => JSVal.undef

/-- Property write on an object: replace the first field named `k` in place,
or append a new field (JavaScript assignment keeps the insertion order of an
existing key). -/
def setField : List (String × JSVal) → String → JSVal → List (String × JSVal)
  | [], k, v => [(k, v)]
  | (k', v') :: fs, k, v =>
    if k' == k then (k, v) :: fs else (k', v') :: setField fs k v

/-- `const RESERVED_KEYWORDS = ['_username', 'username', 'roles', '_roles', 'hasRole']`. -/
def RESERVED_KEYWORDS : List String :=
  ["_username", "username", "roles", "_roles", "hasRole"]

mutual

/-- The deep clone of the `clone` package, with fuel.  Primitives are copied
as themselves, arrays are copied into fresh cells, objects are copied
field-by-field. -/
def cloneVal : Nat → Heap → JSVal → Option (Heap × JSVal)
  | 0, _, _ => none
  | fuel + 1, h, v =>
    match v with
    | JSVal.arr a =>
      match Heap.read h a with
      | none => none
      | some xs =>
        match cloneList fuel h xs with
        | none => none
        | some (h1, ys) =>
          some ((Heap.alloc h1 ys).1, JSVal.arr (Heap.alloc h1 ys).2)
    | JSVal.obj fs =>
      match cloneFields fuel h fs with
      | none => none
      | some (h1, gs) => some (h1, JSVal.obj gs)
    | v => some (h, v)

/-- Clone every element of an array body. -/
def cloneList : Nat → Heap → List JSVal → Option (Heap × List JSVal)
  | _, h, [] => some (h, [])
  | 0, _, _ :: _ => none
  | fuel + 1, h, v :: vs =>
    match cloneVal fuel h v with
    | none => none
    | some (h1, w) =>
      match cloneList fuel h1 vs with
      | none => none
      | some (h2, ws) => some (h2, w :: ws)

/-- Clone every field of an object. -/
def cloneFields : Nat → Heap → List (String × JSVal) → Option (Heap × List (String × JSVal))
  | _, h, [] => some (h, [])
  | 0, _, _ :: _ => none
  | fuel + 1, h, (k, v) :: fs =>
    match cloneVal fuel h v with
    | none => none
    | some (h1, w) =>
      match cloneFields fuel h1 fs with
      | none => none
      | some (h2, gs) => some (h2, (k, w) :: gs)

end

/-- The four construction-time errors of `lib/user.js`. -/
inductive UserError where
  | invalidRoles
  | invalidUserData
  | invalidUsername
  | invalidRolesField
deriving Repr, DecidableEq

/-- The exact `Error` messages thrown by the source. -/
def UserError.message : UserError → String
  | UserError.invalidRoles => "Invalid roles specified (arg #2)"
  | UserError.invalidUserData =>
      "Invalid user data specified (arg #1). Must be a string or object."
  | UserError.invalidUsername =>
      "User data does not define a valid username (user.username)"
  | UserError.invalidRolesField =>
      "User data does not define valid roles (user.roles)"

/-- A constructed `User` instance: the extra attributes assigned by the
`for (let prop in user)` loop, plus the `_username` and `_roles` own fields
(`_roles` is the address of the cloned roles array). -/
structure User where
  extras : List (String × JSVal)
  _username : String
  _roles : Nat
deriving Repr

/-- `if (!props || (props instanceof Array) || typeof props !== 'object') props = {}`. -/
def defaultedProps (props : JSVal) : JSVal :=
  match props with
  | JSVal.obj fs => JSVal.obj fs
  | _ => JSVal.obj []

/-- Fields of an object value (the clone of an object is always an object). -/
def objFields : JSVal → List (String × JSVal)
  | JSVal.obj fs => fs
  | _ => []

/-- The `for (let prop in user)` adoption loop: copy every field whose name is
not reserved onto the instance, in iteration order. -/
def extrasOf (fs : List (String × JSVal)) : List (String × JSVal) :=
  fs.foldl
    (fun acc kv =>
      if RESERVED_KEYWORDS.contains kv.1 then acc else setField acc kv.1 kv.2)
    []

/-- The part of the constructor that runs on the working record `user`
(both calling forms funnel into it): validate `user.username`, validate
`user.roles`, run the adoption loop, then set `_username` and
`_roles = _clone(user.roles)`.  `none` means the clone ran out of fuel (or an
address dangled, which no JavaScript run can produce). -/
def constructFromRecord (fuel : Nat) (h : Heap) (fs : List (String × JSVal)) :
    Option (Except UserError (Heap × User)) :=
  match getField fs "username" with
  | JSVal.str uname =>
    if 0 < uname.length then
      match getField fs "roles" with
      | JSVal.arr a =>
        match cloneVal fuel h (JSVal.arr a) with
        | some (h1, JSVal.arr b) =>
          some (Except.ok (h1, ⟨extrasOf fs, uname, b⟩))
        | _ => none
      | _ => some (Except.error UserError.invalidRolesField)
    else some (Except.error UserError.invalidUsername)
  | _ => some (Except.error UserError.invalidUsername)

/-- `new User(user, roles, props)`.  A missing argument is `JSVal.undef`.
`some (Except.error e)` models `throw`, `some (Except.ok (h, u))` a normal
return with the final heap, `none` clone-fuel exhaustion (a model artifact:
the real clone always terminates on real inputs). -/
def User.construct (fuel : Nat) (h : Heap) (user roles props : JSVal) :
    Option (Except UserError (Heap × User)) :=
  match user with
  | JSVal.str username =>
    match roles with
    | JSVal.arr a =>
      match cloneVal fuel h (defaultedProps props) with
      | none => none
      | some (h1, pv) =>
        constructFromRecord fuel h1
          (setField (setField (objFields pv) "username" (JSVal.str username))
            "roles" (JSVal.arr a))
    | _ => some (Except.error UserError.invalidRoles)
  | JSVal.obj fs => constructFromRecord fuel h fs
  | _ => some (Except.error UserError.invalidUserData)

/-- `get username() { return this._username; }` -/
def User.username (u : User) : String :=
  u._username

/-- `get roles() { return this._roles; }` — the getter returns the internal
array itself (a reference), not a copy. -/
def User.roles (u : User) : JSVal :=
  JSVal.arr u._roles

/-- `hasRole(roles)`: a string is wrapped into a one-element array; a
non-array (after that) yields `false`; otherwise `true` iff some queried
element occurs (by `===`) in `this._roles`. -/
def User.hasRole (h : Heap) (u : User) (q : JSVal) : Bool :=
  let qs : Option (List JSVal) :=
    match q with
    | JSVal.str s => some [JSVal.str s]
    | JSVal.arr a => Heap.read h a
    | _ => none
  match qs with
  | none => false
  | some xs => xs.any (fun x => jsElem x ((Heap.read h u._roles).getD []))

/-- Property lookup `u[name]` on an instance: own fields (`_username`,
`_roles`, the adopted extras) first, then the prototype accessors `username`
and `roles` and the prototype method `hasRole`. -/
def User.getAttr (u : User) (name : String) : JSVal :=
  if name = "_username" then JSVal.str u._username
  else if name = "_roles" then JSVal.arr u._roles
  else
    match u.extras.find? (fun p => p.1 == name) with
    | some p => p.2
    | none =>
      if name = "username" then JSVal.str u._username
      else if name = "roles" then JSVal.arr u._roles
      else if name = "hasRole" then JSVal.fn
      else JSVal.undef

/-! ### Basic lemmas about fields, the heap and the clone -/

theorem getField_nil (k : String) : getField [] k = JSVal.undef := rfl

theorem getField_cons (k0 : String) (v0 : JSVal) (fs : List (String × JSVal)) (k : String) :
    getField ((k0, v0) :: fs) k = if k0 = k then v0 else getField fs k := by
  by_cases h : k0 = k
  · subst h; simp [getField, List.find?_cons]
  · simp [getField, List.find?_cons, h]

theorem getField_setField_same (fs : List (String × JSVal)) (k : String) (v : JSVal) :
    getField (setField fs k v) k = v := by
  induction fs with
  | nil => simp [setField, getField_cons]
  | cons p fs ih =>
    obtain ⟨k', v'⟩ := p
    by_cases hk : k' = k
    · subst hk; simp [setField, getField_cons]
    · simp [setField, hk, getField_cons, ih]

theorem getField_setField_ne (fs : List (String × JSVal)) (k k' : String) (v : JSVal)
    (hne : k' ≠ k) : getField (setField fs k v) k' = getField fs k' := by
  induction fs with
  | nil =>
    show getField [(k, v)] k' = getField [] k'
    rw [getField_cons, if_neg (fun h => hne h.symm)]
  | cons p fs ih =>
    obtain ⟨k0, v0⟩ := p
    by_cases hk : k0 = k
    · subst hk
      simp only [setField, beq_self_eq_true, if_pos]
      rw [getField_cons, getField_cons, if_neg (fun h => hne h.symm),
        if_neg (fun h => hne h.symm)]
    · simp only [setField, beq_iff_eq, if_neg hk]
      rw [getField_cons, getField_cons, ih]

theorem setField_mem (fs : List (String × JSVal)) (k : String) (v : JSVal)
    (p : String × JSVal) (hp : p ∈ setField fs k v) : p ∈ fs ∨ p = (k, v) := by
  induction fs with
  | nil => simp [setField] at hp; right; exact hp
  | cons q fs ih =>
    obtain ⟨k0, v0⟩ := q
    by_cases hk : k0 = k
    · subst hk
      simp only [setField, beq_self_eq_true, if_pos, List.mem_cons] at hp
      rcases hp with hp | hp
      · right; exact hp
      · left; exact List.mem_cons_of_mem _ hp
    · simp only [setField, beq_iff_eq, if_neg hk, List.mem_cons] at hp
      rcases hp with hp | hp
      · left; exact List.mem_cons.mpr (Or.inl hp)
      · rcases ih hp with h | h
        · left; exact List.mem_cons_of_mem _ h
        · right; exact h

theorem getField_eq_undef_of_not_mem (fs : List (String × JSVal)) (k : String)
    (hk : k ∉ fs.map Prod.fst) : getField fs k = JSVal.undef := by
  induction fs with
  | nil => rfl
  | cons p fs ih =>
    obtain ⟨k0, v0⟩ := p
    simp only [List.map_cons, List.mem_cons] at hk
    push_neg at hk
    rw [getField_cons, if_neg (fun h => hk.1 h.symm)]
    exact ih hk.2

theorem Heap.read_write_ne (h : Heap) (a b : Nat) (xs : List JSVal) (hab : a ≠ b) :
    Heap.read (Heap.write h a xs) b = Heap.read h b := by
  simp [Heap.read, Heap.write, List.getElem?_set_ne hab]

theorem Heap.read_write_self (h : Heap) (a : Nat) (xs : List JSVal)
    (ha : a < h.cells.length) : Heap.read (Heap.write h a xs) a = some xs := by
  simp [Heap.read, Heap.write, List.getElem?_set_eq_of_lt xs ha]

theorem Heap.read_alloc_self (h : Heap) (xs : List JSVal) :
    Heap.read (Heap.alloc h xs).1 (Heap.alloc h xs).2 = some xs := by
  simp [Heap.read, Heap.alloc]

theorem Heap.read_alloc_old (h : Heap) (xs : List JSVal) (i : Nat)
    (hi : i < h.cells.length) : Heap.read (Heap.alloc h xs).1 i = Heap.read h i := by
  simp only [Heap.read, Heap.alloc]
  rw [List.getElem?_append]
  simp [hi]

/-- A successful clone never shrinks the heap (it only allocates). -/
theorem clone_length_le (fuel : Nat) :
    (∀ h v h1 w, cloneVal fuel h v = some (h1, w) →
      h.cells.length ≤ h1.cells.length) ∧
    (∀ h vs h1 ws, cloneList fuel h vs = some (h1, ws) →
      h.cells.length ≤ h1.cells.length) ∧
    (∀ h fs h1 gs, cloneFields fuel h fs = some (h1, gs) →
      h.cells.length ≤ h1.cells.length) := by
  induction fuel with
  | zero =>
    refine ⟨?_, ?_, ?_⟩
    · intro h v h1 w hc; simp [cloneVal] at hc
    · intro h vs h1 ws hc
      cases vs with
      | nil => simp [cloneList] at hc; simp [hc.1]
      | cons v vs => simp [cloneList] at hc
    · intro h fs h1 gs hc
      cases fs with
      | nil => simp [cloneFields] at hc; simp [hc.1]
      | cons f fs => obtain ⟨k, v⟩ := f; simp [cloneFields] at hc
  | succ fuel ih =>
    obtain ⟨ihv, ihl, ihf⟩ := ih
    refine ⟨?_, ?_, ?_⟩
    · intro h v h1 w hc
      cases v with
      | arr a =>
        simp only [cloneVal] at hc
        split at hc
        · exact absurd hc (by simp)
        · rename_i xs hr
          split at hc
          · exact absurd hc (by simp)
          · rename_i p h2 ys hcl
            simp only [Option.some.injEq, Prod.mk.injEq] at hc
            have hle := ihl h xs h2 ys hcl
            have hlen : h1.cells.length = h2.cells.length + 1 := by
              rw [← hc.1]; simp [Heap.alloc]
            omega
      | obj fs =>
        simp only [cloneVal] at hc
        split at hc
        · exact absurd hc (by simp)
        · rename_i p h2 gs hcf
          simp only [Option.some.injEq, Prod.mk.injEq] at hc
          rw [← hc.1]
          exact ihf h fs h2 gs hcf
      | str s => simp [cloneVal] at hc; simp [hc.1]
      | num n => simp [cloneVal] at hc; simp [hc.1]
      | bool b => simp [cloneVal] at hc; simp [hc.1]
      | null => simp [cloneVal] at hc; simp [hc.1]
      | undef => simp [cloneVal] at hc; simp [hc.1]
      | fn => simp [cloneVal] at hc; simp [hc.1]
    · intro h vs h1 ws hc
      cases vs with
      | nil => simp [cloneList] at hc; simp [hc.1]
      | cons v vs =>
        simp only [cloneList] at hc
        split at hc
        · exact absurd hc (by simp)
        · rename_i p h2 w hv
          split at hc
          · exact absurd hc (by simp)
          · rename_i q h3 ws' hl
            simp only [Option.some.injEq, Prod.mk.injEq] at hc
            have h12 := ihv h v h2 w hv
            have h23 := ihl h2 vs h3 ws' hl
            have : h1 = h3 := hc.1.symm
            subst this
            omega
    · intro h fs h1 gs hc
      cases fs with
      | nil => simp [cloneFields] at hc; simp [hc.1]
      | cons f fs =>
        obtain ⟨k, v⟩ := f
        simp only [cloneFields] at hc
        split at hc
        · exact absurd hc (by simp)
        · rename_i p h2 w hv
          split at hc
          · exact absurd hc (by simp)
          · rename_i q h3 gs' hl
            simp only [Option.some.injEq, Prod.mk.injEq] at hc
            have h12 := ihv h v h2 w hv
            have h23 := ihf h2 fs h3 gs' hl
            have : h1 = h3 := hc.1.symm
            subst this
            omega

/-- Every field the adoption loop puts on the instance has a non-reserved name. -/
theorem extras_adopt_not_reserved (fs acc : List (String × JSVal))
    (hacc : ∀ p ∈ acc, p.1 ∉ RESERVED_KEYWORDS) :
    ∀ p ∈ fs.foldl
        (fun acc kv =>
          if RESERVED_KEYWORDS.contains kv.1 then acc else setField acc kv.1 kv.2)
        acc,
      p.1 ∉ RESERVED_KEYWORDS := by
  induction fs generalizing acc with
  | nil => simpa using hacc
  | cons kv fs ih =>
    obtain ⟨k0, v0⟩ := kv
    simp only [List.foldl_cons]
    by_cases hres : k0 ∈ RESERVED_KEYWORDS
    · rw [if_pos (by simpa using hres)]
      exact ih acc hacc
    · rw [if_neg (by simpa using hres)]
      refine ih _ ?_
      intro p hp
      rcases setField_mem acc k0 v0 p hp with h | h
      · exact hacc p h
      · rw [h]; exact hres

theorem extrasOf_not_reserved (fs : List (String × JSVal)) :
    ∀ p ∈ extrasOf fs, p.1 ∉ RESERVED_KEYWORDS :=
  extras_adopt_not_reserved fs [] (by simp)

/-- On a non-reserved name the adoption loop reproduces the working record's
own lookup (for a record with distinct keys, i.e. a real JavaScript object). -/
theorem getField_adopt (fs : List (String × JSVal)) (acc : List (String × JSVal)) (k : String)
    (hk : k ∉ RESERVED_KEYWORDS) (hnd : (fs.map Prod.fst).Nodup) :
    getField
        (fs.foldl
          (fun acc kv =>
            if RESERVED_KEYWORDS.contains kv.1 then acc else setField acc kv.1 kv.2)
          acc)
        k
      = if k ∈ fs.map Prod.fst then getField fs k else getField acc k := by
  induction fs generalizing acc with
  | nil => simp
  | cons kv fs ih =>
    obtain ⟨k0, v0⟩ := kv
    simp only [List.map_cons, List.nodup_cons] at hnd
    simp only [List.foldl_cons, List.map_cons, List.mem_cons]
    by_cases hres : k0 ∈ RESERVED_KEYWORDS
    · have hkk0 : k ≠ k0 := fun h => hk (h ▸ hres)
      rw [if_pos (by simpa using hres), ih acc hnd.2]
      simp only [getField_cons, if_neg (Ne.symm hkk0)]
      by_cases hmem : k ∈ fs.map Prod.fst <;> simp [hmem, hkk0]
    · rw [if_neg (by simpa using hres), ih _ hnd.2]
      by_cases hkk0 : k = k0
      · subst hkk0
        simp [hnd.1, getField_cons, getField_setField_same]
      · simp only [getField_cons, if_neg (Ne.symm hkk0),
          getField_setField_ne acc k0 k v0 hkk0]
        by_cases hmem : k ∈ fs.map Prod.fst <;> simp [hmem, hkk0]

theorem getField_extrasOf (fs : List (String × JSVal)) (k : String)
    (hk : k ∉ RESERVED_KEYWORDS) (hnd : (fs.map Prod.fst).Nodup) :
    getField (extrasOf fs) k = getField fs k := by
  rw [extrasOf, getField_adopt fs [] k hk hnd]
  by_cases hmem : k ∈ fs.map Prod.fst
  · simp [hmem]
  · simp [hmem, getField_nil, getField_eq_undef_of_not_mem fs k hmem]

/-- Shape of a successful clone of an array value: a fresh address holding the
clone of the contents. -/
theorem cloneVal_arr_ok (fuel : Nat) (h h1 : Heap) (a : Nat) (w : JSVal)
    (hc : cloneVal fuel h (JSVal.arr a) = some (h1, w)) :
    ∃ b, w = JSVal.arr b ∧ h.cells.length ≤ b ∧ b < h1.cells.length := by
  cases fuel with
  | zero => simp [cloneVal] at hc
  | succ fuel =>
    simp only [cloneVal] at hc
    split at hc
    · exact absurd hc (by simp)
    · rename_i xs hr
      split at hc
      · exact absurd hc (by simp)
      · rename_i p h2 ys hcl
        simp only [Option.some.injEq, Prod.mk.injEq] at hc
        refine ⟨(Heap.alloc h2 ys).2, hc.2.symm, ?_, ?_⟩
        · have := (clone_length_le fuel).2.1 h xs h2 ys hcl
          simpa [Heap.alloc] using this
        · rw [← hc.1]; simp [Heap.alloc]

/-- Cloning an array of primitive strings changes nothing and needs only
`length + 1` fuel. -/
theorem cloneList_map_str (ss : List String) (h : Heap) (fuel : Nat)
    (hfuel : ss.length + 1 ≤ fuel) :
    cloneList fuel h (ss.map JSVal.str) = some (h, ss.map JSVal.str) := by
  induction ss generalizing fuel h with
  | nil => cases fuel <;> rfl
  | cons s rest ih =>
    obtain ⟨f, rfl⟩ : ∃ f, fuel = f + 1 := ⟨fuel - 1, by omega⟩
    obtain ⟨g, rfl⟩ : ∃ g, f = g + 1 := ⟨f - 1, by simp at hfuel; omega⟩
    have hrest := ih h (g + 1) (by simp at hfuel ⊢; omega)
    simp [cloneList, cloneVal, hrest]

/-- Shape of a successful run of the shared record phase. -/
theorem constructFromRecord_ok (fuel : Nat) (h h' : Heap) (fs : List (String × JSVal))
    (u : User) (hc : constructFromRecord fuel h fs = some (Except.ok (h', u))) :
    u.extras = extrasOf fs ∧
    getField fs "username" = JSVal.str u._username ∧
    0 < u._username.length ∧
    (∃ a, getField fs "roles" = JSVal.arr a ∧
      cloneVal fuel h (JSVal.arr a) = some (h', JSVal.arr u._roles)) ∧
    h.cells.length ≤ u._roles := by
  unfold constructFromRecord at hc
  split at hc
  case h_2 => exact absurd hc (by simp)
  case h_1 uname hu =>
    split at hc
    case isFalse => exact absurd hc (by simp)
    case isTrue hlen =>
      split at hc
      case h_2 hr => exact absurd hc (by simp)
      case h_1 a hr =>
        split at hc
        case h_2 => exact absurd hc (by simp)
        case h_1 h1 b hcl =>
          simp only [Option.some.injEq, Except.ok.injEq, Prod.mk.injEq] at hc
          obtain ⟨hh, huu⟩ := hc
          subst hh
          subst huu
          refine ⟨rfl, hu, hlen, ⟨a, hr, hcl⟩, ?_⟩
          obtain ⟨b', hb', hlow, _⟩ := cloneVal_arr_ok fuel h h1 a _ hcl
          have : b' = b := by
            have := hb'
            simp only [JSVal.arr.injEq] at this
            omega
          show h.cells.length ≤ b
          omega

/-- With a valid `username` field and an array `roles` field the record phase
never throws (it either succeeds or runs out of clone fuel). -/
theorem constructFromRecord_no_error (fuel : Nat) (h : Heap) (fs : List (String × JSVal))
    (s : String) (a : Nat) (e : UserError)
    (hu : getField fs "username" = JSVal.str s) (hlen : 0 < s.length)
    (hr : getField fs "roles" = JSVal.arr a) :
    constructFromRecord fuel h fs ≠ some (Except.error e) := by
  intro hc
  simp only [constructFromRecord, hu, hr, if_pos hlen] at hc
  split at hc
  · simp at hc
  · simp at hc

/-- Every successfully constructed instance has reserved-free extras (they
come from an adoption loop) and a freshly allocated `_roles` address. -/
theorem construct_ok_shape (fuel : Nat) (h h' : Heap) (user roles props : JSVal)
    (u : User)
    (hc : User.construct fuel h user roles props = some (Except.ok (h', u))) :
    (∃ fs, u.extras = extrasOf fs) ∧ h.cells.length ≤ u._roles := by
  unfold User.construct at hc
  cases user with
  | str username =>
    cases roles with
    | arr a =>
      revert hc
      cases hcl : cloneVal fuel h (defaultedProps props) with
      | none => intro hc; simp at hc
      | some p =>
        obtain ⟨h1, pv⟩ := p
        intro hc
        simp only at hc
        have hsh := constructFromRecord_ok fuel h1 h' _ u hc
        refine ⟨⟨_, hsh.1⟩, ?_⟩
        have h01 : h.cells.length ≤ h1.cells.length :=
          (clone_length_le fuel).1 h _ h1 pv hcl
        have := hsh.2.2.2.2
        omega
    | str s => simp at hc
    | num n => simp at hc
    | bool b => simp at hc
    | null => simp at hc
    | undef => simp at hc
    | fn => simp at hc
    | obj fs => simp at hc
  | obj fs =>
    have hsh := constructFromRecord_ok fuel h h' fs u hc
    exact ⟨⟨fs, hsh.1⟩, hsh.2.2.2.2⟩
  | num n => simp at hc
  | bool b => simp at hc
  | null => simp at hc
  | undef => simp at hc
  | fn => simp at hc
  | arr a => simp at hc

/-- Concrete run of the record phase on a two-field record whose roles array
holds plain strings. -/
theorem constructFromRecord_strings (fuel : Nat) (h : Heap) (uname : String)
    (ss : List String) (a : Nat) (hu : 0 < uname.length)
    (hfuel : ss.length + 2 ≤ fuel) (hr : Heap.read h a = some (ss.map JSVal.str)) :
    constructFromRecord fuel h
        [("username", JSVal.str uname), ("roles", JSVal.arr a)]
      = some (Except.ok (⟨h.cells ++ [ss.map JSVal.str]⟩,
          ⟨[], uname, h.cells.length⟩)) := by
  obtain ⟨f, rfl⟩ : ∃ f, fuel = f + 1 := ⟨fuel - 1, by omega⟩
  have hu1 : getField [("username", JSVal.str uname), ("roles", JSVal.arr a)] "username"
      = JSVal.str uname := by
    rw [getField_cons, if_pos rfl]
  have hr1 : getField [("username", JSVal.str uname), ("roles", JSVal.arr a)] "roles"
      = JSVal.arr a := by
    rw [getField_cons, if_neg (by decide), getField_cons, if_pos rfl]
  have hcl : cloneList f h (ss.map JSVal.str) = some (h, ss.map JSVal.str) :=
    cloneList_map_str ss h f (by omega)
  have hex : extrasOf [("username", JSVal.str uname), ("roles", JSVal.arr a)] = [] := by
    simp [extrasOf, RESERVED_KEYWORDS]
  simp only [constructFromRecord, hu1, hr1, if_pos hu, cloneVal, hr, hcl, hex]
  simp [Heap.alloc]

theorem cloneList_nil (fuel : Nat) (h : Heap) : cloneList fuel h [] = some (h, []) := by
  cases fuel <;> rfl

theorem cloneFields_nil (fuel : Nat) (h : Heap) : cloneFields fuel h [] = some (h, []) := by
  cases fuel <;> rfl

/-! ### The claims -/

/-- C1.  `hasRole` is total (it is a Lean function, so it can raise no error)
and returns `true` exactly when the query is a string that occurs in the
user's role list, or an array at least one of whose elements occurs in the
role list; membership (`jsElem`) is `indexOf`'s strict equality, which on
strings is exact string equality.  Every other query shape — and an empty
query array, a disjoint query, or an empty role list — yields `false`. -/
theorem hasRole_membership_iff (h : Heap) (u : User) (q : JSVal) (rs : List JSVal)
    (hro : Heap.read h u._roles = some rs) :
    User.hasRole h u q = true ↔
      ((∃ s, q = JSVal.str s ∧ jsElem (JSVal.str s) rs = true) ∨
       (∃ a qs, q = JSVal.arr a ∧ Heap.read h a = some qs ∧
          ∃ x ∈ qs, jsElem x rs = true)) := by
  cases q with
  | str s =>
    simp [User.hasRole, hro]
  | arr a =>
    cases hq : Heap.read h a with
    | none => simp [User.hasRole, hq, hro]
    | some qs => simp [User.hasRole, hq, hro, List.any_eq_true]
  | num n => simp [User.hasRole]
  | bool b => simp [User.hasRole]
  | null => simp [User.hasRole]
  | undef => simp [User.hasRole]
  | fn => simp [User.hasRole]
  | obj fs => simp [User.hasRole]

theorem hasRole_membership_iff_witness :
    User.hasRole ⟨[[JSVal.str "admin"]]⟩ ⟨[], "u", 0⟩ (JSVal.str "admin") = true :=
  (hasRole_membership_iff ⟨[[JSVal.str "admin"]]⟩ ⟨[], "u", 0⟩ (JSVal.str "admin")
      [JSVal.str "admin"] rfl).mpr (Or.inl ⟨"admin", rfl, rfl⟩)

/-- C2, counterexample.  A user is built with roles `["admin"]`; the `roles`
accessor hands out the internal cell (address 1); overwriting that cell
changes what a later `hasRole("admin")` observes, from `true` to `false`.
So the value returned by the accessor does permit mutation of the internal
role list. -/
theorem roles_accessor_mutation_cex :
    User.construct 5 ⟨[[JSVal.str "admin"]]⟩
        (JSVal.obj [("username", JSVal.str "u"), ("roles", JSVal.arr 0)])
        JSVal.undef JSVal.undef
      = some (Except.ok (⟨[[JSVal.str "admin"], [JSVal.str "admin"]]⟩,
          ⟨[], "u", 1⟩)) ∧
    User.roles ⟨[], "u", 1⟩ = JSVal.arr 1 ∧
    User.hasRole ⟨[[JSVal.str "admin"], [JSVal.str "admin"]]⟩ ⟨[], "u", 1⟩
        (JSVal.str "admin") = true ∧
    User.hasRole (Heap.write ⟨[[JSVal.str "admin"], [JSVal.str "admin"]]⟩ 1 [])
        ⟨[], "u", 1⟩ (JSVal.str "admin") = false :=
  ⟨rfl, rfl, rfl, rfl⟩

/-- C2, amended.  The `roles` getter returns the internal `_roles` array by
reference, not a copy: writing through the returned reference is visible in
every later read of the user's roles and in every later `hasRole` query
(the defensive copy happens only once, at construction). -/
theorem roles_accessor_aliases_internal (h : Heap) (u : User) (a : Nat)
    (xs : List JSVal) (s : String)
    (hacc : User.roles u = JSVal.arr a) (ha : a < h.cells.length) :
    Heap.read (Heap.write h a xs) u._roles = some xs ∧
    User.hasRole (Heap.write h a xs) u (JSVal.str s) = jsElem (JSVal.str s) xs := by
  have hau : a = u._roles := by
    have hh := hacc
    simp only [User.roles, JSVal.arr.injEq] at hh
    omega
  subst hau
  have hrw := Heap.read_write_self h u._roles xs ha
  refine ⟨hrw, ?_⟩
  simp [User.hasRole, hrw, jsElem]

theorem roles_accessor_aliases_internal_witness :
    Heap.read (Heap.write ⟨[[JSVal.str "admin"]]⟩ 0 []) 0 = some [] ∧
    User.hasRole (Heap.write ⟨[[JSVal.str "admin"]]⟩ 0 []) ⟨[], "u", 0⟩
        (JSVal.str "admin") = jsElem (JSVal.str "admin") [] :=
  roles_accessor_aliases_internal ⟨[[JSVal.str "admin"]]⟩ ⟨[], "u", 0⟩ 0 [] "admin"
    rfl (by decide)

/-- C3.  Supplying extra attributes with reserved names is harmless and
ineffective: (1) in the positional form any `props` value (given a non-empty
username and an array roles argument) never causes a `throw`; (2) in the
record form a record with a valid `username` and an array `roles` field never
causes a `throw`, whatever other (reserved-named) fields it carries; (3) on
any successfully constructed user, the observable value at a reserved name is
the real `_username` string, the real `_roles` array, or the `hasRole`
method — never a caller-supplied sentinel distinct from those. -/
theorem reserved_attrs_never_overwritten (fuel : Nat) (h : Heap) :
    (∀ (uname : String) (a : Nat) (props : JSVal) (e : UserError),
        0 < uname.length →
        User.construct fuel h (JSVal.str uname) (JSVal.arr a) props
          ≠ some (Except.error e)) ∧
    (∀ (fs : List (String × JSVal)) (s : String) (a : Nat)
        (roles props : JSVal) (e : UserError),
        getField fs "username" = JSVal.str s → 0 < s.length →
        getField fs "roles" = JSVal.arr a →
        User.construct fuel h (JSVal.obj fs) roles props
          ≠ some (Except.error e)) ∧
    (∀ (user roles props : JSVal) (h' : Heap) (u : User)
        (name : String) (sentinel : JSVal),
        User.construct fuel h user roles props = some (Except.ok (h', u)) →
        name ∈ RESERVED_KEYWORDS →
        sentinel ≠ JSVal.str u._username → sentinel ≠ JSVal.arr u._roles →
        sentinel ≠ JSVal.fn →
        User.getAttr u name ≠ sentinel) := by
  refine ⟨?_, ?_, ?_⟩
  · intro uname a props e hlen hc
    unfold User.construct at hc
    revert hc
    cases hcl : cloneVal fuel h (defaultedProps props) with
    | none => intro hc; simp at hc
    | some p =>
      obtain ⟨h1, pv⟩ := p
      intro hc
      simp only at hc
      refine constructFromRecord_no_error fuel h1 _ uname a e ?_ hlen ?_ hc
      · rw [getField_setField_ne _ _ _ _ (by decide), getField_setField_same]
      · rw [getField_setField_same]
  · intro fs s a roles props e hu hlen hr hc
    exact constructFromRecord_no_error fuel h fs s a e hu hlen hr hc
  · intro user roles props h' u name sentinel hc hname hs1 hs2 hs3
    obtain ⟨⟨fs, hex⟩, _⟩ := construct_ok_shape fuel h h' user roles props u hc
    have hfind : u.extras.find? (fun p => p.1 == name) = none := by
      rw [hex]
      apply List.find?_eq_none.mpr
      intro p hp hbeq
      refine absurd ?_ (extrasOf_not_reserved fs p hp)
      have hpn : p.1 = name := by simpa using hbeq
      rw [hpn]; exact hname
    have : name = "_username" ∨ name = "username" ∨ name = "roles" ∨
        name = "_roles" ∨ name = "hasRole" := by
      simpa [RESERVED_KEYWORDS, or_comm, or_assoc, or_left_comm] using hname
    rcases this with rfl | rfl | rfl | rfl | rfl
    · intro heq
      rw [User.getAttr, if_pos rfl] at heq
      exact hs1 heq.symm
    · intro heq
      rw [User.getAttr, if_neg (by decide), if_neg (by decide), hfind] at heq
      rw [if_pos rfl] at heq
      exact hs1 heq.symm
    · intro heq
      rw [User.getAttr, if_neg (by decide), if_neg (by decide), hfind] at heq
      rw [if_neg (by decide), if_pos rfl] at heq
      exact hs2 heq.symm
    · intro heq
      rw [User.getAttr, if_neg (by decide), if_pos rfl] at heq
      exact hs2 heq.symm
    · intro heq
      rw [User.getAttr, if_neg (by decide), if_neg (by decide), hfind] at heq
      rw [if_neg (by decide), if_neg (by decide), if_pos rfl] at heq
      exact hs3 heq.symm

theorem reserved_attrs_never_overwritten_witness :
    User.getAttr ⟨[("foo", JSVal.str "bar")], "u", 1⟩ "_username"
      ≠ JSVal.str "EVIL" :=
  (reserved_attrs_never_overwritten 5 ⟨[[JSVal.str "admin"]]⟩).2.2
    (JSVal.str "u") (JSVal.arr 0)
    (JSVal.obj [("_username", JSVal.str "EVIL"), ("foo", JSVal.str "bar")])
    ⟨[[JSVal.str "admin"], [JSVal.str "admin"]]⟩
    ⟨[("foo", JSVal.str "bar")], "u", 1⟩ "_username" (JSVal.str "EVIL")
    rfl (by decide)
    (fun hh => absurd (JSVal.str.inj hh) (by decide))
    (fun hh => JSVal.noConfusion hh)
    (fun hh => JSVal.noConfusion hh)

/-- C4.  A first argument that is neither a string nor a non-array object —
a number, boolean, `null`, `undefined`, a function, or an array — is rejected
with the `InvalidUserData` error, whose message names argument position 1 and
demands a string or object. -/
theorem invalid_first_arg_rejected (fuel : Nat) (h : Heap) (user roles props : JSVal)
    (hns : ∀ s, user ≠ JSVal.str s) (hno : ∀ fs, user ≠ JSVal.obj fs) :
    User.construct fuel h user roles props
      = some (Except.error UserError.invalidUserData) ∧
    UserError.message UserError.invalidUserData
      = "Invalid user data specified (arg #1). Must be a string or object." := by
  refine ⟨?_, rfl⟩
  cases user with
  | str s => exact absurd rfl (hns s)
  | obj fs => exact absurd rfl (hno fs)
  | num n => rfl
  | bool b => rfl
  | null => rfl
  | undef => rfl
  | fn => rfl
  | arr a => rfl

theorem invalid_first_arg_rejected_witness :
    User.construct 1 ⟨[]⟩ (JSVal.num 3) JSVal.undef JSVal.undef
      = some (Except.error UserError.invalidUserData) ∧
    UserError.message UserError.invalidUserData
      = "Invalid user data specified (arg #1). Must be a string or object." :=
  invalid_first_arg_rejected 1 ⟨[]⟩ (JSVal.num 3) JSVal.undef JSVal.undef
    (fun _ hh => JSVal.noConfusion hh) (fun _ hh => JSVal.noConfusion hh)

/-- C5.  Record form: a `username` field that is absent or not a string, or
that is the empty string, fails with `InvalidUsername`; a non-empty string
username never produces that error. -/
theorem username_validation (fuel : Nat) (h : Heap) (fs : List (String × JSVal))
    (roles props : JSVal) :
    ((∀ s : String, getField fs "username" ≠ JSVal.str s) →
      User.construct fuel h (JSVal.obj fs) roles props
        = some (Except.error UserError.invalidUsername)) ∧
    (getField fs "username" = JSVal.str "" →
      User.construct fuel h (JSVal.obj fs) roles props
        = some (Except.error UserError.invalidUsername)) ∧
    (∀ s : String, getField fs "username" = JSVal.str s → 0 < s.length →
      User.construct fuel h (JSVal.obj fs) roles props
        ≠ some (Except.error UserError.invalidUsername)) := by
  refine ⟨?_, ?_, ?_⟩
  · intro hns
    show constructFromRecord fuel h fs = _
    cases hg : getField fs "username" with
    | str s => exact absurd hg (hns s)
    | num n => simp [constructFromRecord, hg]
    | bool b => simp [constructFromRecord, hg]
    | null => simp [constructFromRecord, hg]
    | undef => simp [constructFromRecord, hg]
    | fn => simp [constructFromRecord, hg]
    | arr a => simp [constructFromRecord, hg]
    | obj gs => simp [constructFromRecord, hg]
  · intro hg
    show constructFromRecord fuel h fs = _
    simp [constructFromRecord, hg]
  · intro s hg hlen hc
    replace hc : constructFromRecord fuel h fs
        = some (Except.error UserError.invalidUsername) := hc
    simp only [constructFromRecord, hg, if_pos hlen] at hc
    split at hc
    · split at hc
      · simp at hc
      · simp at hc
    · simp at hc

theorem username_validation_witness :
    User.construct 1 ⟨[]⟩ (JSVal.obj [("username", JSVal.str "")])
        JSVal.undef JSVal.undef
      = some (Except.error UserError.invalidUsername) :=
  (username_validation 1 ⟨[]⟩ [("username", JSVal.str "")]
      JSVal.undef JSVal.undef).2.1 rfl

/-- C6.  Whichever calling form produced the user, the `_roles` cell is
freshly allocated by the construction-time clone, so it is distinct from
every array address that existed before construction; overwriting such a
pre-existing (caller-owned) array afterwards changes neither the contents
read through the user's roles cell nor any `hasRole` answer. -/
theorem roles_defensive_copy_at_construction (fuel : Nat) (h h' : Heap)
    (user roles props : JSVal) (u : User) (a : Nat) (xs : List JSVal)
    (hc : User.construct fuel h user roles props = some (Except.ok (h', u)))
    (ha : a < h.cells.length) :
    a ≠ u._roles ∧
    Heap.read (Heap.write h' a xs) u._roles = Heap.read h' u._roles ∧
    ∀ s : String, User.hasRole (Heap.write h' a xs) u (JSVal.str s)
      = User.hasRole h' u (JSVal.str s) := by
  obtain ⟨_, hfresh⟩ := construct_ok_shape fuel h h' user roles props u hc
  have hna : a ≠ u._roles := by omega
  refine ⟨hna, Heap.read_write_ne h' a u._roles xs hna, ?_⟩
  intro s
  simp [User.hasRole, Heap.read_write_ne h' a u._roles xs hna]

theorem roles_defensive_copy_at_construction_witness :
    (0 : Nat) ≠ 1 ∧
    Heap.read (Heap.write ⟨[[JSVal.str "admin"], [JSVal.str "admin"]]⟩ 0 []) 1
      = Heap.read ⟨[[JSVal.str "admin"], [JSVal.str "admin"]]⟩ 1 ∧
    User.hasRole (Heap.write ⟨[[JSVal.str "admin"], [JSVal.str "admin"]]⟩ 0 [])
        ⟨[], "u", 1⟩ (JSVal.str "admin")
      = User.hasRole ⟨[[JSVal.str "admin"], [JSVal.str "admin"]]⟩
          ⟨[], "u", 1⟩ (JSVal.str "admin") := by
  have ht := roles_defensive_copy_at_construction 5 ⟨[[JSVal.str "admin"]]⟩
    ⟨[[JSVal.str "admin"], [JSVal.str "admin"]]⟩
    (JSVal.obj [("username", JSVal.str "u"), ("roles", JSVal.arr 0)])
    JSVal.undef JSVal.undef ⟨[], "u", 1⟩ 0 [] rfl (by decide)
  exact ⟨ht.1, ht.2.1, ht.2.2 "admin"⟩

/-- C7.  In the positional form a `props` argument that is not a non-array
object (absent/`undefined`, `null`, a number, a boolean, a function, or an
array) is silently replaced by the empty record — construction behaves
exactly as with no `props` — and, given a non-empty username and an array
roles argument (whose clone succeeds with the given fuel), construction
succeeds. -/
theorem malformed_props_permissive (fuel : Nat) (h h1 : Heap) (uname : String)
    (a : Nat) (props w : JSVal)
    (hp : ∀ fs, props ≠ JSVal.obj fs) (hu : 0 < uname.length)
    (hclone : cloneVal fuel h (JSVal.arr a) = some (h1, w)) :
    User.construct fuel h (JSVal.str uname) (JSVal.arr a) props
      = User.construct fuel h (JSVal.str uname) (JSVal.arr a) JSVal.undef ∧
    ∃ h' u, User.construct fuel h (JSVal.str uname) (JSVal.arr a) props
      = some (Except.ok (h', u)) := by
  have hdp : defaultedProps props = JSVal.obj [] := by
    cases props with
    | obj fs => exact absurd rfl (hp fs)
    | str s => rfl
    | num n => rfl
    | bool b => rfl
    | null => rfl
    | undef => rfl
    | fn => rfl
    | arr b => rfl
  obtain ⟨f, rfl⟩ : ∃ f, fuel = f + 1 := by
    cases fuel with
    | zero => simp [cloneVal] at hclone
    | succ f => exact ⟨f, rfl⟩
  obtain ⟨b, hb, _, _⟩ := cloneVal_arr_ok (f + 1) h h1 a w hclone
  subst hb
  have hclean : cloneVal (f + 1) h (JSVal.obj []) = some (h, JSVal.obj []) := by
    simp [cloneVal, cloneFields_nil]
  have hfields : setField (setField (objFields (JSVal.obj ([] : List (String × JSVal))))
        "username" (JSVal.str uname)) "roles" (JSVal.arr a)
      = [("username", JSVal.str uname), ("roles", JSVal.arr a)] := by
    simp [objFields, setField]
  constructor
  · show (match cloneVal (f + 1) h (defaultedProps props) with
      | none => none
      | some (h1, pv) =>
        constructFromRecord (f + 1) h1
          (setField (setField (objFields pv) "username" (JSVal.str uname))
            "roles" (JSVal.arr a))) = _
    rw [hdp]
    rfl
  · refine ⟨h1, ⟨[], uname, b⟩, ?_⟩
    show (match cloneVal (f + 1) h (defaultedProps props) with
      | none => none
      | some (h1, pv) =>
        constructFromRecord (f + 1) h1
          (setField (setField (objFields pv) "username" (JSVal.str uname))
            "roles" (JSVal.arr a))) = _
    rw [hdp, hclean]
    simp only [hfields]
    have hgu : getField [("username", JSVal.str uname), ("roles", JSVal.arr a)]
        "username" = JSVal.str uname := by
      rw [getField_cons, if_pos rfl]
    have hgr : getField [("username", JSVal.str uname), ("roles", JSVal.arr a)]
        "roles" = JSVal.arr a := by
      rw [getField_cons, if_neg (by decide), getField_cons, if_pos rfl]
    have hex : extrasOf [("username", JSVal.str uname), ("roles", JSVal.arr a)]
        = [] := by
      simp [extrasOf, RESERVED_KEYWORDS]
    simp only [constructFromRecord, hgu, hgr, if_pos hu, hclone, hex]

theorem malformed_props_permissive_witness :
    User.construct 3 ⟨[[JSVal.str "admin"]]⟩ (JSVal.str "u") (JSVal.arr 0)
        (JSVal.num 7)
      = User.construct 3 ⟨[[JSVal.str "admin"]]⟩ (JSVal.str "u") (JSVal.arr 0)
          JSVal.undef :=
  (malformed_props_permissive 3 ⟨[[JSVal.str "admin"]]⟩
      ⟨[[JSVal.str "admin"], [JSVal.str "admin"]]⟩ "u" 0 (JSVal.num 7)
      (JSVal.arr 1) (fun _ hh => JSVal.noConfusion hh) (by decide) rfl).1

/-- C8.  Round trip: from a heap holding the string array `ss` at address
`a`, both the record form `{username: uname, roles: a}` and the positional
form `(uname, a)` construct successfully, producing the same user; the
`username` accessor returns `uname`, and the `roles` accessor points at the
freshly cloned cell whose contents are exactly `ss` — order and duplicates
preserved. -/
theorem construct_round_trip (h0 : Heap) (uname : String) (ss : List String)
    (a : Nat) (fuel : Nat) (hu : 0 < uname.length) (hfuel : ss.length + 2 ≤ fuel)
    (hr : Heap.read h0 a = some (ss.map JSVal.str)) :
    User.construct fuel h0
        (JSVal.obj [("username", JSVal.str uname), ("roles", JSVal.arr a)])
        JSVal.undef JSVal.undef
      = some (Except.ok (⟨h0.cells ++ [ss.map JSVal.str]⟩,
          ⟨[], uname, h0.cells.length⟩)) ∧
    User.construct fuel h0 (JSVal.str uname) (JSVal.arr a) JSVal.undef
      = some (Except.ok (⟨h0.cells ++ [ss.map JSVal.str]⟩,
          ⟨[], uname, h0.cells.length⟩)) ∧
    User.username ⟨[], uname, h0.cells.length⟩ = uname ∧
    User.roles ⟨[], uname, h0.cells.length⟩ = JSVal.arr h0.cells.length ∧
    Heap.read ⟨h0.cells ++ [ss.map JSVal.str]⟩ h0.cells.length
      = some (ss.map JSVal.str) := by
  have hrec := constructFromRecord_strings fuel h0 uname ss a hu hfuel hr
  refine ⟨hrec, ?_, rfl, rfl, Heap.read_alloc_self h0 (ss.map JSVal.str)⟩
  obtain ⟨f, rfl⟩ : ∃ f, fuel = f + 1 := ⟨fuel - 1, by omega⟩
  have hclean : cloneVal (f + 1) h0 (JSVal.obj []) = some (h0, JSVal.obj []) := by
    simp [cloneVal, cloneFields_nil]
  have hfields : setField (setField (objFields (JSVal.obj ([] : List (String × JSVal))))
        "username" (JSVal.str uname)) "roles" (JSVal.arr a)
      = [("username", JSVal.str uname), ("roles", JSVal.arr a)] := by
    simp [objFields, setField]
  show (match cloneVal (f + 1) h0 (defaultedProps JSVal.undef) with
    | none => none
    | some (h1, pv) =>
      constructFromRecord (f + 1) h1
        (setField (setField (objFields pv) "username" (JSVal.str uname))
          "roles" (JSVal.arr a))) = _
  rw [show defaultedProps JSVal.undef = JSVal.obj [] from rfl, hclean]
  simp only [hfields]
  exact hrec

theorem construct_round_trip_witness :
    User.construct 10 ⟨[[JSVal.str "admin", JSVal.str "user"]]⟩
        (JSVal.obj [("username", JSVal.str "foobar"), ("roles", JSVal.arr 0)])
        JSVal.undef JSVal.undef
      = some (Except.ok (⟨[[JSVal.str "admin", JSVal.str "user"],
          [JSVal.str "admin", JSVal.str "user"]]⟩, ⟨[], "foobar", 1⟩)) ∧
    User.construct 10 ⟨[[JSVal.str "admin", JSVal.str "user"]]⟩
        (JSVal.str "foobar") (JSVal.arr 0) JSVal.undef
      = some (Except.ok (⟨[[JSVal.str "admin", JSVal.str "user"],
          [JSVal.str "admin", JSVal.str "user"]]⟩, ⟨[], "foobar", 1⟩)) ∧
    User.username ⟨[], "foobar", 1⟩ = "foobar" ∧
    User.roles ⟨[], "foobar", 1⟩ = JSVal.arr 1 ∧
    Heap.read ⟨[[JSVal.str "admin", JSVal.str "user"],
        [JSVal.str "admin", JSVal.str "user"]]⟩ 1
      = some [JSVal.str "admin", JSVal.str "user"] :=
  construct_round_trip ⟨[[JSVal.str "admin", JSVal.str "user"]]⟩ "foobar"
    ["admin", "user"] 0 10 (by decide) (by decide) rfl

/-- C9.  In the positional form the roles argument is checked before the
username: any string first argument (the empty string included) with a
non-array second argument fails with `InvalidRoles` — never `InvalidUserData`
or `InvalidUsername` — while the empty string with an array roles argument
(once the props clone yields a result) fails with `InvalidUsername`. -/
theorem positional_roles_validated_first (fuel : Nat) (h : Heap) :
    (∀ (s : String) (roles props : JSVal), (∀ a : Nat, roles ≠ JSVal.arr a) →
      User.construct fuel h (JSVal.str s) roles props
        = some (Except.error UserError.invalidRoles)) ∧
    (∀ (a : Nat) (props : JSVal) (h1 : Heap) (pv : JSVal),
      cloneVal fuel h (defaultedProps props) = some (h1, pv) →
      User.construct fuel h (JSVal.str "") (JSVal.arr a) props
        = some (Except.error UserError.invalidUsername)) := by
  constructor
  · intro s roles props hra
    cases roles with
    | arr a => exact absurd rfl (hra a)
    | str t => rfl
    | num n => rfl
    | bool b => rfl
    | null => rfl
    | undef => rfl
    | fn => rfl
    | obj fs => rfl
  · intro a props h1 pv hcl
    have hgu : getField (setField (setField (objFields pv) "username"
        (JSVal.str "")) "roles" (JSVal.arr a)) "username" = JSVal.str "" := by
      rw [getField_setField_ne _ _ _ _ (by decide), getField_setField_same]
    show (match cloneVal fuel h (defaultedProps props) with
      | none => none
      | some (h1, pv) =>
        constructFromRecord fuel h1
          (setField (setField (objFields pv) "username" (JSVal.str ""))
            "roles" (JSVal.arr a))) = _
    rw [hcl]
    simp [constructFromRecord, hgu]

theorem positional_roles_validated_first_witness :
    User.construct 1 ⟨[]⟩ (JSVal.str "x") (JSVal.num 1) JSVal.undef
      = some (Except.error UserError.invalidRoles) :=
  (positional_roles_validated_first 1 ⟨[]⟩).1 "x" (JSVal.num 1) JSVal.undef
    (fun _ hh => JSVal.noConfusion hh)

/-- C10.  Record form: the value of every non-reserved field is adopted onto
the instance as the identical `JSVal` — in particular an array-valued extra
keeps its address, so the cell stays shared between caller and user — while
the `_roles` cell is freshly allocated (distinct from every pre-existing
address, in particular from the record's own roles array): only the roles
field is cloned. -/
theorem record_extras_adopted_by_reference (fuel : Nat) (h h' : Heap)
    (fs : List (String × JSVal)) (roles props : JSVal) (u : User) (k : String)
    (hc : User.construct fuel h (JSVal.obj fs) roles props
      = some (Except.ok (h', u)))
    (hnd : (fs.map Prod.fst).Nodup) (hk : k ∉ RESERVED_KEYWORDS) :
    getField u.extras k = getField fs k ∧
    h.cells.length ≤ u._roles ∧
    ∀ b : Nat, getField fs "roles" = JSVal.arr b → b < h.cells.length →
      b ≠ u._roles := by
  have hc' : constructFromRecord fuel h fs = some (Except.ok (h', u)) := hc
  obtain ⟨hex, -, -, -, hfresh⟩ := constructFromRecord_ok fuel h h' fs u hc'
  refine ⟨?_, hfresh, ?_⟩
  · rw [hex]
    exact getField_extrasOf fs k hk hnd
  · intro b _ hb
    omega

theorem record_extras_adopted_by_reference_witness :
    getField [("foo", JSVal.arr 0)] "foo"
      = getField [("username", JSVal.str "u"), ("roles", JSVal.arr 0),
          ("foo", JSVal.arr 0)] "foo" ∧
    (1 : Nat) ≤ 1 ∧
    (0 : Nat) ≠ 1 := by
  have ht := record_extras_adopted_by_reference 5 ⟨[[JSVal.str "admin"]]⟩
    ⟨[[JSVal.str "admin"], [JSVal.str "admin"]]⟩
    [("username", JSVal.str "u"), ("roles", JSVal.arr 0), ("foo", JSVal.arr 0)]
    JSVal.undef JSVal.undef ⟨[("foo", JSVal.arr 0)], "u", 1⟩ "foo"
    rfl (by decide) (by decide)
  exact ⟨ht.1, ht.2.1, ht.2.2 0 rfl (by decide)⟩
